import Mathlib

/-!
Shallow embedding of the reactive-ai core package: the `debounce` and
`throttle` utilities (packages/core/src/utils.ts) and the
`CoreReactiveEngine` class (packages/core/src/engine.ts), together with
theorems settling the frozen claims about them.

Timers are modelled over a discrete clock (`Nat` milliseconds).  A
`setTimeout` due at instant `T` fires when the clock reaches `T`, before any
call made at a strictly later instant; a call arriving at exactly instant `T`
is processed after the timer due at `T`.
-/

namespace ReactiveAI

/-- Symbolic shape of the rate-limiter chain that `wrapActionWithControls`
builds around a user `execute` callback: `base` is the raw callback,
`deb d w` is `debounce(w, d)` and `thr l w` is `throttle(w, l)`. -/
inductive Wrapped : Type where
  | base : Wrapped
  | deb : Nat → Wrapped → Wrapped
  | thr : Nat → Wrapped → Wrapped
deriving DecidableEq

/-- Runtime state of a rate-limiter chain.  A `debounce` closure holds its
pending timer (`timeoutId`): the instant it is due and the saved arguments of
the last call.  A `throttle` closure holds the instant its cooldown ends
(`inThrottle` is true strictly before that instant). -/
inductive WState (α : Type) : Type where
  | base : WState α
  | deb : Nat → Option (Nat × α) → WState α → WState α
  | thr : Nat → Nat → WState α → WState α
deriving DecidableEq

/-- Fresh closure state for a wrapper chain: no pending debounce timer, and
`inThrottle` initially false (cooldown already over at instant 0). -/
def Wrapped.start {α : Type} : Wrapped → WState α
  | .base => .base
  | .deb d w => .deb d none (Wrapped.start w)
  | .thr l w => .thr l 0 (Wrapped.start w)

/-- One synchronous invocation of a wrapped callback at instant `t` with
argument `a`, following the two closures in utils.ts: debounce clears and
re-arms its timer and returns at once; throttle forwards the call when not in
cooldown (starting a new cooldown of its limit) and otherwise drops it.  The
returned list collects the (instant, argument) pairs at which the base
callback body actually ran during this call. -/
def WState.call {α : Type} : WState α → Nat → α → WState α × List (Nat × α)
  | .base, t, a => (.base, [(t, a)])
  | .deb d _ inner, t, a => (.deb d (some (t + d, a)) inner, [])
  | .thr l ready inner, t, a =>
      if ready ≤ t then
        let r := WState.call inner t a
        (.thr l (t + l) r.1, r.2)
      else (.thr l ready inner, [])

/-- Fire every pending debounce timer due at or before instant `T`.  A single
pass suffices because `wrapActionWithControls` never nests one debounce
inside another, so a firing timer cannot arm a second debounce timer. -/
def WState.advance {α : Type} : WState α → Nat → WState α × List (Nat × α)
  | .base, _ => (.base, [])
  | .thr l ready inner, T =>
      let r := WState.advance inner T
      (.thr l ready r.1, r.2)
  | .deb d (some (ft, a)) inner, T =>
      if ft ≤ T then
        let r := WState.call inner ft a
        (.deb d none r.1, r.2)
      else
        let r := WState.advance inner T
        (.deb d (some (ft, a)) r.1, r.2)
  | .deb d none inner, T =>
      let r := WState.advance inner T
      (.deb d none r.1, r.2)

/-- Deliver a list of timed calls to a wrapper chain: timers due by each
call's instant fire first, then the call itself is made. -/
def WState.deliver {α : Type} : WState α → List (Nat × α) → WState α × List (Nat × α)
  | w, [] => (w, [])
  | w, (t, a) :: rest =>
      let s1 := WState.advance w t
      let s2 := WState.call s1.1 t a
      let s3 := WState.deliver s2.1 rest
      (s3.1, s1.2 ++ (s2.2 ++ s3.2))

/-- Fire whatever debounce timers remain pending, whatever their due time. -/
def WState.flush {α : Type} : WState α → List (Nat × α)
  | .base => []
  | .thr _ _ inner => WState.flush inner
  | .deb _ (some (ft, a)) inner => (WState.call inner ft a).2
  | .deb _ none inner => WState.flush inner

/-- Base-callback invocations produced by a wrapper chain on a timed call
sequence, letting every pending timer eventually fire. -/
def runW {α : Type} (w : Wrapped) (calls : List (Nat × α)) : List (Nat × α) :=
  let r := WState.deliver (Wrapped.start w) calls
  r.2 ++ WState.flush r.1

/-- Engine method `wrapActionWithControls`: wraps the stored `execute` with
debounce and/or throttle when the action's fields are set and positive.  The
source applies the debounce wrapper first and the throttle wrapper second, so
when both are set the throttle wrapper ends up outermost. -/
def wrapActionWithControls (debounceMs throttleMs : Nat) : Wrapped :=
  let w0 := Wrapped.base
  let w1 := if 0 < debounceMs then Wrapped.deb debounceMs w0 else w0
  if 0 < throttleMs then Wrapped.thr throttleMs w1 else w1

/-- Declarative description of debounce taken from the spec's words (for
claim C7): a call fires at its own instant plus the delay, with its own
arguments, exactly when it is the last call or the next call arrives no
earlier than that deadline. -/
def debounceSpecFires {α : Type} (d : Nat) : List (Nat × α) → List (Nat × α)
  | [] => []
  | [(t, a)] => [(t + d, a)]
  | (t, a) :: (t2, b) :: rest =>
      (if t + d ≤ t2 then [(t + d, a)] else []) ++ debounceSpecFires d ((t2, b) :: rest)

/-- Declarative description of throttle taken from the spec's words (for
claim C8): given the instant the current cooldown ends, a call fires
immediately iff it arrives at or after that instant, starting a new cooldown
of the limit; calls during the cooldown are dropped. -/
def throttleSpecFires {α : Type} (l : Nat) : Nat → List (Nat × α) → List (Nat × α)
  | _, [] => []
  | ready, (t, a) :: rest =>
      if ready ≤ t then (t, a) :: throttleSpecFires l (t + l) rest
      else throttleSpecFires l ready rest

lemma deliver_deb_base {α : Type} (d : Nat) :
    ∀ (calls : List (Nat × α)) (t0 : Nat) (a0 : α),
      (let r := WState.deliver (WState.deb d (some (t0 + d, a0)) WState.base) calls
       r.2 ++ WState.flush r.1) = debounceSpecFires d ((t0, a0) :: calls) := by
  intro calls
  induction calls with
  | nil =>
      intro t0 a0
      simp [WState.deliver, WState.flush, WState.call, debounceSpecFires]
  | cons hd tl ih =>
      intro t0 a0
      obtain ⟨t1, a1⟩ := hd
      by_cases h : t0 + d ≤ t1
      · simpa [WState.deliver, WState.advance, WState.call, h, debounceSpecFires,
          List.append_assoc] using congrArg (List.cons (t0 + d, a0)) (ih t1 a1)
      · simpa [WState.deliver, WState.advance, WState.call, h, debounceSpecFires] using ih t1 a1

lemma deliver_thr_base {α : Type} (l : Nat) :
    ∀ (calls : List (Nat × α)) (ready : Nat),
      (let r := WState.deliver (WState.thr l ready WState.base) calls
       r.2 ++ WState.flush r.1) = throttleSpecFires l ready calls := by
  intro calls
  induction calls with
  | nil =>
      intro ready
      simp [WState.deliver, WState.flush, throttleSpecFires]
  | cons hd tl ih =>
      intro ready
      obtain ⟨t1, a1⟩ := hd
      by_cases h : ready ≤ t1
      · simpa [WState.deliver, WState.advance, WState.call, h, throttleSpecFires] using
          congrArg (List.cons (t1, a1)) (ih (t1 + l))
      · simpa [WState.deliver, WState.advance, WState.call, h, throttleSpecFires] using ih ready

/-- C7: the wrapper returned by `debounce(fn, d)` satisfies the quiet-window
law: a call's body runs (at its instant plus `d`, with that call's arguments)
exactly when no further invocation arrives before that deadline, and only the
last call of a quiet window is used; in particular five calls within 50ms of
a 100ms debounce invoke the body exactly once, with the final arguments. -/
theorem debounce_quiet_window :
    (∀ (α : Type) (d : Nat) (calls : List (Nat × α)),
        runW (Wrapped.deb d Wrapped.base) calls = debounceSpecFires d calls)
    ∧ runW (Wrapped.deb 100 Wrapped.base)
        [(0, (0 : Nat)), (10, 1), (20, 2), (30, 3), (40, 4)] = [(140, 4)] := by
  constructor
  · intro α d calls
    cases calls with
    | nil => simp [runW, WState.deliver, Wrapped.start, WState.flush, debounceSpecFires]
    | cons hd tl =>
        obtain ⟨t0, a0⟩ := hd
        simpa [runW, WState.deliver, Wrapped.start, WState.advance, WState.call] using
          deliver_deb_base d tl t0 a0
  · decide

/-- C8: the wrapper returned by `throttle(fn, l)` runs the body immediately
on a call arriving at or after the end of the current cooldown (starting a
new cooldown of `l`) and drops calls arriving during the cooldown; in
particular five calls within 50ms of a 100ms throttle invoke the body exactly
once (the first call), and a sixth call 150ms after the first invokes it
again. -/
theorem throttle_cooldown :
    (∀ (α : Type) (l : Nat) (calls : List (Nat × α)),
        runW (Wrapped.thr l Wrapped.base) calls = throttleSpecFires l 0 calls)
    ∧ runW (Wrapped.thr 100 Wrapped.base)
        [(0, (0 : Nat)), (10, 1), (20, 2), (30, 3), (40, 4)] = [(0, 0)]
    ∧ runW (Wrapped.thr 100 Wrapped.base)
        [(0, (0 : Nat)), (10, 1), (20, 2), (30, 3), (40, 4), (150, 5)] = [(0, 0), (150, 5)] := by
  refine ⟨?_, by decide, by decide⟩
  intro α l calls
  simpa [runW, Wrapped.start] using deliver_thr_base l calls 0

/-- C6 counterexample: with both fields set to 100 the source stores
`throttle(debounce(execute))`, not the claimed `debounce(throttle(execute))`,
and the two compositions behave differently: on calls at instants 0 and 50
the stored wrapper fires once at 100 with the first call's argument, while
the claimed wrapper fires once at 150 with the second call's argument. -/
theorem wrap_order_cex :
    wrapActionWithControls 100 100 ≠ Wrapped.deb 100 (Wrapped.thr 100 Wrapped.base)
    ∧ wrapActionWithControls 100 100 = Wrapped.thr 100 (Wrapped.deb 100 Wrapped.base)
    ∧ runW (wrapActionWithControls 100 100) [(0, (0 : Nat)), (50, 1)] = [(100, 0)]
    ∧ runW (Wrapped.deb 100 (Wrapped.thr 100 Wrapped.base))
        [(0, (0 : Nat)), (50, 1)] = [(150, 1)] := by
  decide

/-- C6 amended: for every action with both `debounceMs` and `throttleMs`
positive, `addAction` composes the rate limiters with throttle as the outer
wrapper around debounce: the stored execute is
`throttle(debounce(original execute))`. -/
theorem wrap_throttle_outer (d l : Nat) (hd : 0 < d) (hl : 0 < l) :
    wrapActionWithControls d l = Wrapped.thr l (Wrapped.deb d Wrapped.base) := by
  simp [wrapActionWithControls, hd, hl]

theorem wrap_throttle_outer_witness :
    wrapActionWithControls 100 100 = Wrapped.thr 100 (Wrapped.deb 100 Wrapped.base) :=
  wrap_throttle_outer 100 100 (by decide) (by decide)

/-!
The engine.  State type `σ` and provider-map type `ρ` are parameters.  User
callbacks are modelled as total functions: a trigger or condition is a
boolean function of its source arguments, and the user `execute` callback is
described by `execBeh`, which tells for each invocation context whether the
body throws synchronously (`true`) or returns a promise (`false`).  The
outcome of a still-pending promise is decided later by an explicit
settlement event, matching the single-threaded JavaScript semantics in which
`processAction` suspends only at `await action.execute(context)`.
-/

/-- ActionContext built in `processAction` and handed to conditions and to
the user execute callback. -/
structure Ctx (σ ρ : Type) where
  state : σ
  providers : ρ
  trigger : String
  timestamp : Nat
  previousState : σ

/-- A `ReactiveAction` as supplied to `configure` / `addAction`: an optional
id, the user callbacks, and the per-action control fields (0 meaning the
field is unset, as the source treats 0 and undefined alike). -/
structure ActionIn (σ ρ : Type) where
  id : Option String
  trigger : σ → σ → Nat → Bool
  conditions : List (Ctx σ ρ → Bool)
  preventDefault : Bool
  debounce : Nat
  throttle : Nat
  execBeh : Ctx σ ρ → Bool

/-- A stored action, after `addAction` resolved its id and wrapped its
execute callback; `w` is the closure state of the stored (wrapped) execute. -/
structure Act (σ ρ : Type) where
  id : String
  trigger : σ → σ → Nat → Bool
  conditions : List (Ctx σ ρ → Bool)
  preventDefault : Bool
  debounce : Nat
  throttle : Nat
  execBeh : Ctx σ ρ → Bool
  w : WState (Ctx σ ρ)

/-- A `ReactiveConfig`: initial state, provider map, action list, whether an
`onError` callback was supplied (its invocations are counted), debug flag. -/
structure Config (σ ρ : Type) where
  state : σ
  providers : ρ
  actions : List (ActionIn σ ρ)
  onError : Bool
  debug : Bool

/-- The `CoreReactiveEngine` instance fields, plus the observables needed to
state the claims: the in-flight awaited execute promises (`pending`, keyed by
a fresh number), the log of user execute-body invocations (action id and the
context's state), the number of `onError` invocations, and the number of
failures of timer-deferred invocations (which nothing catches). -/
structure Engine (σ ρ : Type) where
  config : Option (Config σ ρ)
  currentState : Option σ
  previousState : Option σ
  actions : List (String × Act σ ρ)
  executingActions : List String
  isDestroyed : Bool
  pending : List (Nat × String)
  nextExec : Nat
  nextGen : Nat
  invocations : List (String × σ)
  onErrorCount : Nat
  uncaughtCount : Nat

/-- A freshly constructed engine. -/
def Engine.start {σ ρ : Type} : Engine σ ρ :=
  { config := none, currentState := none, previousState := none, actions := [],
    executingActions := [], isDestroyed := false, pending := [], nextExec := 0,
    nextGen := 0, invocations := [], onErrorCount := 0, uncaughtCount := 0 }

/-- JavaScript `Set.add` on the execution tracker. -/
def insertId (l : List String) (i : String) : List String :=
  if l.contains i then l else l ++ [i]

/-- JavaScript `Set.delete` on the execution tracker. -/
def removeId (l : List String) (i : String) : List String :=
  l.filter (fun x => !(x == i))

/-- JavaScript `Map.set`: replace in place, else append (insertion order). -/
def mapSet {β : Type} (m : List (String × β)) (k : String) (v : β) : List (String × β) :=
  if m.any (fun p => p.1 == k) then m.map (fun p => if p.1 == k then (k, v) else p)
  else m ++ [(k, v)]

/-- JavaScript `Map.get`. -/
def mapGet {β : Type} (m : List (String × β)) (k : String) : Option β :=
  (m.find? (fun p => p.1 == k)).map Prod.snd

/-- The stored action built inside `addAction`: fields spread from the input
and the execute callback wrapped by `wrapActionWithControls`. -/
def storedAction {σ ρ : Type} (i : String) (a : ActionIn σ ρ) : Act σ ρ :=
  { id := i, trigger := a.trigger, conditions := a.conditions,
    preventDefault := a.preventDefault, debounce := a.debounce,
    throttle := a.throttle, execBeh := a.execBeh,
    w := (wrapActionWithControls a.debounce a.throttle).start }

/-- `addAction`: resolve the id (the source generates one from the clock and
a random suffix when none is given; modelled by a fresh counter), wrap the
execute callback, and store the action under its id. -/
def Engine.addAction {σ ρ : Type} (e : Engine σ ρ) (a : ActionIn σ ρ) : Engine σ ρ :=
  match a.id with
  | some i => { e with actions := mapSet e.actions i (storedAction i a) }
  | none =>
      let i := "action_gen_" ++ toString e.nextGen
      { e with actions := mapSet e.actions i (storedAction i a), nextGen := e.nextGen + 1 }

/-- `removeAction`: delete the entry if present; no error either way. -/
def Engine.removeAction {σ ρ : Type} (e : Engine σ ρ) (actionId : String) : Engine σ ρ :=
  { e with actions := e.actions.filter (fun p => !(p.1 == actionId)) }

/-- `configure`: throws on a destroyed engine; otherwise stores the config,
sets the current state, and registers every supplied action through
`addAction`.  Note that `previousState` is not touched. -/
def Engine.configure {σ ρ : Type} (e : Engine σ ρ) (cfg : Config σ ρ) :
    Except String (Engine σ ρ) :=
  if e.isDestroyed then Except.error "Cannot configure destroyed reactive engine"
  else
    Except.ok (cfg.actions.foldl Engine.addAction
      { e with config := some cfg, currentState := some cfg.state })

/-- `destroy`: clear actions and tracker, drop config and state, set the
destroyed flag.  Pending promises are not cancelled. -/
def Engine.destroy {σ ρ : Type} (e : Engine σ ρ) : Engine σ ρ :=
  { e with actions := [], executingActions := [], config := none,
           currentState := none, previousState := none, isDestroyed := true }

/-- `processAction` for one stored action, given the old state captured by
`updateState` (`fal` is JavaScript falsiness on `σ`: the source guard
`!oldState` skips not only null but any falsy old state).  The synchronous
part runs atomically: trigger, conditions, the preventDefault re-entry
guard, adding the id to the tracker, and invoking the stored (wrapped)
execute.  A synchronous throw out of the wrapped execute is caught by the
catch block (reported through `onError` when configured) and the finally
block removes the id.  When the stored execute is the raw user callback
(`w = base`) and it returns a promise, the promise is awaited: it stays in
`pending` and the catch/finally run at settlement.  When the execute is
wrapped, it returns undefined, the await settles on the next microtask, and
the finally removes the id at once; any promise produced later by the
deferred body is discarded by the wrapper, out of reach of this catch. -/
def Engine.processAction {σ ρ : Type} (e : Engine σ ρ) (fal : σ → Bool)
    (oldOpt : Option σ) (newState : σ) (t : Nat) (a : Act σ ρ) :
    Engine σ ρ × Act σ ρ :=
  match e.config, oldOpt with
  | some cfg, some old =>
      if fal old then (e, a)
      else if a.trigger old newState t then
        let ctx : Ctx σ ρ :=
          { state := newState, providers := cfg.providers, trigger := a.id,
            timestamp := t, previousState := old }
        if a.conditions.all (fun c => c ctx) then
          if a.preventDefault && e.executingActions.contains a.id then (e, a)
          else
            let e1 := { e with executingActions := insertId e.executingActions a.id }
            let r : WState (Ctx σ ρ) × List (Nat × Ctx σ ρ) := WState.call a.w t ctx
            let a2 : Act σ ρ := { a with w := r.1 }
            let e2 := { e1 with
              invocations := e1.invocations ++
                r.2.map (fun (f : Nat × Ctx σ ρ) => (a.id, f.2.state)) }
            if r.2.any (fun f => a.execBeh f.2) then
              let e3 := if cfg.onError then { e2 with onErrorCount := e2.onErrorCount + 1 }
                        else e2
              ({ e3 with executingActions := removeId e3.executingActions a.id }, a2)
            else
              match a.w with
              | .base =>
                  ({ e2 with pending := e2.pending ++ [(e2.nextExec, a.id)],
                             nextExec := e2.nextExec + 1 }, a2)
              | _ => ({ e2 with executingActions := removeId e2.executingActions a.id }, a2)
        else (e, a)
      else (e, a)
  | _, _ => (e, a)

/-- Process every registered action in map order, threading the engine and
collecting the updated closure states. -/
def processActions {σ ρ : Type} (fal : σ → Bool) (oldOpt : Option σ) (newState : σ)
    (t : Nat) : Engine σ ρ → List (String × Act σ ρ) →
    Engine σ ρ × List (String × Act σ ρ)
  | e, [] => (e, [])
  | e, (k, a) :: rest =>
      let r := e.processAction fal oldOpt newState t a
      let s := processActions fal oldOpt newState t r.1 rest
      (s.1, (k, r.2) :: s.2)

/-- `updateState`: no-op when destroyed or unconfigured; otherwise shift the
current state into `previousState`, store the new state, and process every
registered action.  `Promise.allSettled` absorbs any per-action rejection,
so the call itself always resolves. -/
def Engine.updateState {σ ρ : Type} (e : Engine σ ρ) (fal : σ → Bool)
    (newState : σ) (t : Nat) : Engine σ ρ :=
  if e.isDestroyed || e.config.isNone then e
  else
    let oldState := e.currentState
    let e1 := { e with previousState := oldState, currentState := some newState }
    let r := processActions fal oldState newState t e1 e1.actions
    { r.1 with actions := r.2 }

/-- Settlement of the awaited promise of an unwrapped execute.  The finally
block removes the action id from the tracker; on rejection the catch block
invokes `onError` when a callback was configured (after `destroy` the config
is gone: reading `this.config.onError` then throws, the error is absorbed by
`Promise.allSettled`, and `onError` is not invoked). -/
def Engine.settle {σ ρ : Type} (e : Engine σ ρ) (n : Nat) (ok : Bool) : Engine σ ρ :=
  match e.pending.find? (fun p => p.1 == n) with
  | none => e
  | some p =>
      let e1 := { e with pending := e.pending.filter (fun q => !(q.1 == n)) }
      let e2 :=
        if ok then e1
        else
          match e1.config with
          | some cfg =>
              if cfg.onError then { e1 with onErrorCount := e1.onErrorCount + 1 } else e1
          | none => e1
      { e2 with executingActions := removeId e2.executingActions p.2 }

/-- Advance the wall clock to instant `T` for one action: due debounce
timers fire and run the user execute body with the saved context.  This
happens in a plain timer callback, outside any try/catch of the engine: a
synchronous throw is an uncaught error, and a returned promise is discarded
(its rejection, if any, never reaches `onError` either). -/
def tickActions {σ ρ : Type} (T : Nat) : Engine σ ρ → List (String × Act σ ρ) →
    Engine σ ρ × List (String × Act σ ρ)
  | e, [] => (e, [])
  | e, (k, a) :: rest =>
      let r := WState.advance a.w T
      let e1 := { e with
        invocations := e.invocations ++ r.2.map (fun f => (a.id, f.2.state)),
        uncaughtCount := e.uncaughtCount + (r.2.filter (fun f => a.execBeh f.2)).length }
      let s := tickActions T e1 rest
      (s.1, (k, { a with w := r.1 }) :: s.2)

/-- Advance the wall clock to instant `T` for the whole engine. -/
def Engine.tick {σ ρ : Type} (e : Engine σ ρ) (T : Nat) : Engine σ ρ :=
  let r := tickActions T e e.actions
  { r.1 with actions := r.2 }

/-- Events of a run: a `updateState` call, the settlement (fulfilment or
rejection) of the promise of an in-flight unwrapped execute, or the wall
clock reaching an instant at which due timers fire. -/
inductive Ev (σ : Type) where
  | update : σ → Nat → Ev σ
  | settleOk : Nat → Ev σ
  | settleErr : Nat → Ev σ
  | tick : Nat → Ev σ

/-- One event step. -/
def step {σ ρ : Type} (fal : σ → Bool) (e : Engine σ ρ) : Ev σ → Engine σ ρ
  | .update s t => e.updateState fal s t
  | .settleOk n => e.settle n true
  | .settleErr n => e.settle n false
  | .tick T => e.tick T

/-- Run a sequence of events. -/
def run {σ ρ : Type} (fal : σ → Bool) (e : Engine σ ρ) (evs : List (Ev σ)) : Engine σ ρ :=
  evs.foldl (step fal) e

/-- JavaScript falsiness for number-valued state: 0 is falsy. -/
def natFal : Nat → Bool := fun n => n == 0

/-- Extract the engine from a successful `configure`, with a fallback. -/
def okOr {σ ρ : Type} (x : Except String (Engine σ ρ)) (d : Engine σ ρ) : Engine σ ρ :=
  match x with
  | .ok e => e
  | .error _ => d

/-- The action of the spec's C3 scenario: trigger fires when the state
changed, execute appends the context's state to a log (the invocation log)
and succeeds. -/
def c3act : ActionIn Nat Unit :=
  { id := some "a", trigger := fun p c _ => !(p == c), conditions := [],
    preventDefault := false, debounce := 0, throttle := 0, execBeh := fun _ => false }

def c3cfg : Config Nat Unit :=
  { state := 0, providers := (), actions := [c3act], onError := false, debug := false }

def c3e : Engine Nat Unit := okOr (Engine.start.configure c3cfg) Engine.start

/-- C3 counterexample: configured with state 0 and the trigger `p !== c`,
`updateState(1)` leaves the log empty (not `[1]`): `processAction` skips
because the old state 0 is falsy, hitting the `!oldState` guard meant for
null.  A second `updateState(1)` also leaves the log empty (not `[1, 1]`):
its transition is `1 → 1`, for which the trigger itself returns false. -/
theorem trigger_scenario_cex :
    ((run natFal c3e [Ev.update 1 5]).invocations.map Prod.snd = ([] : List Nat))
    ∧ ((run natFal c3e [Ev.update 1 5, Ev.update 1 6]).invocations.map Prod.snd
        = ([] : List Nat))
    ∧ ([] : List Nat) ≠ [1]
    ∧ ([] : List Nat) ≠ [1, 1] := by decide

def c3cfg1 : Config Nat Unit :=
  { state := 1, providers := (), actions := [c3act], onError := false, debug := false }

def c3e1 : Engine Nat Unit := okOr (Engine.start.configure c3cfg1) Engine.start

def c3actAlways : ActionIn Nat Unit := { c3act with trigger := fun _ _ _ => true }

def c3cfgAlways : Config Nat Unit :=
  { state := 1, providers := (), actions := [c3actAlways], onError := false, debug := false }

def c3eAlways : Engine Nat Unit := okOr (Engine.start.configure c3cfgAlways) Engine.start

/-- C3 amended: with a truthy initial state 1, `updateState(2)` fires the
changed-state trigger and the log becomes `[2]`; repeating `updateState(2)`
does not fire again — not because the engine deduplicates, but because the
trigger `p !== c` is false on the transition `2 → 2`.  The engine itself
treats every call as a transition: the same repeated update with an
always-true trigger executes both times.  With the spec's initial state 0
the first transition is skipped wholesale by the falsy-old-state guard. -/
theorem trigger_scenario_actual :
    ((run natFal c3e1 [Ev.update 2 5]).invocations.map Prod.snd = [2])
    ∧ ((run natFal c3e1 [Ev.update 2 5, Ev.update 2 6]).invocations.map Prod.snd = [2])
    ∧ ((run natFal c3eAlways [Ev.update 2 5, Ev.update 2 6]).invocations.map Prod.snd
        = [2, 2])
    ∧ ((run natFal c3e [Ev.update 1 5, Ev.update 1 6]).invocations.map Prod.snd
        = ([] : List Nat)) := by decide

/-- C5: on an engine whose destroyed flag is set, every `configure` call
throws the configuration error, and every `updateState` call is a no-op: it
returns normally with the engine unchanged — no state mutation, no trigger
evaluation, no execute invocation. -/
theorem destroyed_engine_guards {σ ρ : Type} (e : Engine σ ρ) (cfg : Config σ ρ)
    (fal : σ → Bool) (s : σ) (t : Nat) (h : e.isDestroyed = true) :
    e.configure cfg = Except.error "Cannot configure destroyed reactive engine"
    ∧ e.updateState fal s t = e := by
  constructor
  · simp [Engine.configure, h]
  · simp [Engine.updateState, h]

theorem destroyed_engine_guards_witness :
    ((Engine.start.destroy : Engine Nat Unit).configure c3cfg
        = Except.error "Cannot configure destroyed reactive engine")
    ∧ (Engine.start.destroy : Engine Nat Unit).updateState natFal 1 0
        = Engine.start.destroy :=
  destroyed_engine_guards Engine.start.destroy c3cfg natFal 1 0 rfl

/-- C10: `addAction` and `removeAction` perform no destroyed-engine check and
never throw.  On a destroyed engine, `addAction` still wraps and inserts the
action — the action map becomes non-empty again, holding exactly the wrapped
entry — and `removeAction` of any id returns normally, leaving the destroyed
engine as it was. -/
theorem destroyed_addAction_removeAction {σ ρ : Type} (e : Engine σ ρ)
    (a : ActionIn σ ρ) (j : String) :
    ((e.destroy.addAction a).actions ≠ [])
    ∧ ((e.destroy.addAction a).actions.map (fun p => p.2.w)
        = [(wrapActionWithControls a.debounce a.throttle).start])
    ∧ e.destroy.removeAction j = e.destroy := by
  refine ⟨?_, ?_, ?_⟩
  · cases h : a.id <;> simp [Engine.addAction, Engine.destroy, mapSet, h]
  · cases h : a.id <;> simp [Engine.addAction, Engine.destroy, mapSet, h, storedAction]
  · simp [Engine.removeAction, Engine.destroy]

def c9cfg0 : Config Nat Unit :=
  { state := 0, providers := (), actions := [], onError := false, debug := false }

def c9cfg5 : Config Nat Unit :=
  { state := 5, providers := (), actions := [], onError := false, debug := false }

def c9e : Engine Nat Unit :=
  run natFal (okOr (Engine.start.configure c9cfg0) Engine.start) [Ev.update 1 0]

/-- C9 counterexample: configure with state 0, update to 1 (so the previous
state becomes 0), then configure again with state 5.  The second configure
succeeds and sets the current state to 5, but leaves the previous state at 0
— `configure` never writes `previousState`, so it is not null after a
reconfiguration. -/
theorem configure_previous_cex :
    ((c9e.configure c9cfg5).toOption.map Engine.currentState = some (some 5))
    ∧ ((c9e.configure c9cfg5).toOption.map Engine.previousState = some (some 0))
    ∧ some (0 : Nat) ≠ (none : Option Nat) := by decide

/-- The action of the C2 counterexample: always triggered, no conditions,
debounced by 100ms, and its execute body throws when it runs. -/
def c2act : ActionIn Nat Unit :=
  { id := some "a", trigger := fun _ _ _ => true, conditions := [],
    preventDefault := false, debounce := 100, throttle := 0, execBeh := fun _ => true }

def c2cfg : Config Nat Unit :=
  { state := 1, providers := (), actions := [c2act], onError := true, debug := false }

def c2e : Engine Nat Unit := okOr (Engine.start.configure c2cfg) Engine.start

/-- C2 counterexample: one debounced action whose trigger and (empty)
conditions pass on `updateState(2)` and whose execute throws when it runs.
The deferred body does run (the invocation log records it) and its failure
is an uncaught error (`uncaughtCount = 1`), yet `onError` is never invoked:
the count stays 0 where the claim demands exactly 1. -/
theorem onError_count_cex :
    ((run natFal c2e [Ev.update 2 0, Ev.tick 100]).onErrorCount = 0)
    ∧ ((run natFal c2e [Ev.update 2 0, Ev.tick 100]).uncaughtCount = 1)
    ∧ ((run natFal c2e [Ev.update 2 0, Ev.tick 100]).invocations = [("a", 2)])
    ∧ (0 : Nat) ≠ 1 := by decide

lemma mem_insertId_self (l : List String) (i : String) : i ∈ insertId l i := by
  unfold insertId
  split
  next h => simpa using h
  next h => simp

lemma mem_insertId_iff (l : List String) (i j : String) (h : ¬ j = i) :
    j ∈ insertId l i ↔ j ∈ l := by
  unfold insertId
  split
  · exact Iff.rfl
  · simp [h]

lemma mem_removeId_iff (l : List String) (i j : String) (h : ¬ j = i) :
    j ∈ removeId l i ↔ j ∈ l := by
  simp [removeId, List.mem_filter, h]

lemma not_mem_removeId_self (l : List String) (i : String) : ¬ i ∈ removeId l i := by
  simp [removeId, List.mem_filter]

/-- The invocation contexts in which one action's stored execute body runs
synchronously during a single `updateState`, computed from the pre-update
engine data: nothing when the old state is missing or falsy, when the
trigger or a condition rejects, or when the preventDefault re-entry guard
sees the id in the tracker; otherwise whatever the wrapper chain forwards
at once. -/
def actionFires {σ ρ : Type} (cfg : Config σ ρ) (fal : σ → Bool) (oldOpt : Option σ)
    (newState : σ) (t : Nat) (ex : List String) (a : Act σ ρ) : List (Nat × Ctx σ ρ) :=
  match oldOpt with
  | none => []
  | some old =>
      if fal old then []
      else if a.trigger old newState t then
        let ctx : Ctx σ ρ :=
          { state := newState, providers := cfg.providers, trigger := a.id,
            timestamp := t, previousState := old }
        if a.conditions.all (fun c => c ctx) then
          if a.preventDefault && ex.contains a.id then []
          else (WState.call a.w t ctx).2
        else []
      else []

lemma actionFires_congr {σ ρ : Type} (cfg : Config σ ρ) (fal : σ → Bool)
    (oldOpt : Option σ) (newState : σ) (t : Nat) (ex1 ex2 : List String) (a : Act σ ρ)
    (h : ex1.contains a.id = ex2.contains a.id) :
    actionFires cfg fal oldOpt newState t ex1 a
      = actionFires cfg fal oldOpt newState t ex2 a := by
  cases oldOpt with
  | none => rfl
  | some old => simp only [actionFires, h]

/-- Per-action characterization of `processAction`: the invocation log grows
by exactly this action's synchronous fires, `onError` is bumped exactly when
a fire throws and a callback is configured, tracker membership of every
other id is untouched, and the rest of the engine fields are preserved. -/
lemma processAction_spec {σ ρ : Type} (fal : σ → Bool) (oldOpt : Option σ)
    (newState : σ) (t : Nat) (cfg : Config σ ρ) (e : Engine σ ρ) (a : Act σ ρ)
    (hc : e.config = some cfg) :
    ((e.processAction fal oldOpt newState t a).1.invocations
        = e.invocations
          ++ (actionFires cfg fal oldOpt newState t e.executingActions a).map
              (fun f => (a.id, f.2.state)))
    ∧ ((e.processAction fal oldOpt newState t a).1.onErrorCount
        = e.onErrorCount
          + (if cfg.onError
                && (actionFires cfg fal oldOpt newState t e.executingActions a).any
                    (fun f => a.execBeh f.2)
             then 1 else 0))
    ∧ (∀ j, ¬ j = a.id →
        (e.processAction fal oldOpt newState t a).1.executingActions.contains j
          = e.executingActions.contains j)
    ∧ (e.processAction fal oldOpt newState t a).1.config = e.config
    ∧ (e.processAction fal oldOpt newState t a).1.currentState = e.currentState
    ∧ (e.processAction fal oldOpt newState t a).1.previousState = e.previousState
    ∧ (e.processAction fal oldOpt newState t a).1.uncaughtCount = e.uncaughtCount
    ∧ (e.processAction fal oldOpt newState t a).1.actions = e.actions
    ∧ (e.processAction fal oldOpt newState t a).2.id = a.id
    ∧ (e.processAction fal oldOpt newState t a).2.preventDefault = a.preventDefault := by
  cases oldOpt with
  | none =>
      refine ⟨?_, ?_, ?_, ?_, ?_, ?_, ?_, ?_, ?_, ?_⟩ <;>
        simp [Engine.processAction, actionFires, hc]
  | some old =>
      by_cases hf : fal old = true
      · refine ⟨?_, ?_, ?_, ?_, ?_, ?_, ?_, ?_, ?_, ?_⟩ <;>
          simp [Engine.processAction, actionFires, hc, hf]
      · by_cases htr : a.trigger old newState t = true
        · by_cases hcond :
            (a.conditions.all (fun c => c
              ({ state := newState, providers := cfg.providers, trigger := a.id,
                 timestamp := t, previousState := old } : Ctx σ ρ))) = true
          · by_cases hpd : a.preventDefault = true ∧ a.id ∈ e.executingActions
            · refine ⟨?_, ?_, ?_, ?_, ?_, ?_, ?_, ?_, ?_, ?_⟩ <;>
                simp [Engine.processAction, actionFires, hc, hf, htr, hcond, hpd]
            · by_cases hth :
                ((WState.call a.w t
                  ({ state := newState, providers := cfg.providers, trigger := a.id,
                     timestamp := t, previousState := old } : Ctx σ ρ)).2.any
                  (fun f => a.execBeh f.2)) = true
              · by_cases hoe : cfg.onError = true
                · refine ⟨?_, ?_, ?_, ?_, ?_, ?_, ?_, ?_, ?_, ?_⟩ <;>
                    simp [Engine.processAction, actionFires, hc, hf, htr, hcond, hpd, hth,
                      hoe]
                  all_goals
                    intro j hj
                    simp [mem_removeId_iff _ _ _ hj, mem_insertId_iff _ _ _ hj]
                · refine ⟨?_, ?_, ?_, ?_, ?_, ?_, ?_, ?_, ?_, ?_⟩ <;>
                    simp [Engine.processAction, actionFires, hc, hf, htr, hcond, hpd, hth,
                      hoe]
                  all_goals
                    intro j hj
                    simp [mem_removeId_iff _ _ _ hj, mem_insertId_iff _ _ _ hj]
              · cases hw : a.w with
                | base =>
                    rw [hw] at hth
                    simp only [WState.call, List.any_cons, List.any_nil,
                      Bool.or_false] at hth
                    refine ⟨?_, ?_, ?_, ?_, ?_, ?_, ?_, ?_, ?_, ?_⟩ <;>
                      simp [Engine.processAction, actionFires, hc, hf, htr, hcond, hpd,
                        hw, WState.call, hth]
                    all_goals
                      intro j hj
                      simp [mem_insertId_iff _ _ _ hj]
                | deb d p inner =>
                    refine ⟨?_, ?_, ?_, ?_, ?_, ?_, ?_, ?_, ?_, ?_⟩ <;>
                      simp [Engine.processAction, actionFires, hc, hf, htr, hcond, hpd,
                        hw, WState.call]
                    all_goals
                      intro j hj
                      simp [mem_removeId_iff _ _ _ hj, mem_insertId_iff _ _ _ hj]
                | thr l r inner =>
                    rw [hw] at hth
                    by_cases hready : r ≤ t
                    · simp only [WState.call, hready, if_true] at hth
                      refine ⟨?_, ?_, ?_, ?_, ?_, ?_, ?_, ?_, ?_, ?_⟩ <;>
                        simp [Engine.processAction, actionFires, hc, hf, htr, hcond, hpd,
                          hw, WState.call, hready, hth]
                      all_goals
                        intro j hj
                        simp [mem_removeId_iff _ _ _ hj, mem_insertId_iff _ _ _ hj]
                    · refine ⟨?_, ?_, ?_, ?_, ?_, ?_, ?_, ?_, ?_, ?_⟩ <;>
                        simp [Engine.processAction, actionFires, hc, hf, htr, hcond, hpd,
                          hw, WState.call, hready]
                      all_goals
                        intro j hj
                        simp [mem_removeId_iff _ _ _ hj, mem_insertId_iff _ _ _ hj]
          · refine ⟨?_, ?_, ?_, ?_, ?_, ?_, ?_, ?_, ?_, ?_⟩ <;>
              simp [Engine.processAction, actionFires, hc, hf, htr, hcond]
        · refine ⟨?_, ?_, ?_, ?_, ?_, ?_, ?_, ?_, ?_, ?_⟩ <;>
            simp [Engine.processAction, actionFires, hc, hf, htr]

/-- The invocation-log entries contributed by one `updateState` over a list
of stored actions, computed from the pre-update tracker `ex`. -/
def updInvocations {σ ρ : Type} (cfg : Config σ ρ) (fal : σ → Bool) (oldOpt : Option σ)
    (newState : σ) (t : Nat) (ex : List String) :
    List (String × Act σ ρ) → List (String × σ)
  | [] => []
  | p :: rest =>
      (actionFires cfg fal oldOpt newState t ex p.2).map (fun f => (p.2.id, f.2.state))
        ++ updInvocations cfg fal oldOpt newState t ex rest

/-- The number of actions in the list whose synchronous execution during one
`updateState` throws, computed from the pre-update tracker `ex`. -/
def updFailures {σ ρ : Type} (cfg : Config σ ρ) (fal : σ → Bool) (oldOpt : Option σ)
    (newState : σ) (t : Nat) (ex : List String) : List (String × Act σ ρ) → Nat
  | [] => 0
  | p :: rest =>
      (if (actionFires cfg fal oldOpt newState t ex p.2).any (fun f => p.2.execBeh f.2)
       then 1 else 0)
        + updFailures cfg fal oldOpt newState t ex rest

lemma updInvocations_congr {σ ρ : Type} (cfg : Config σ ρ) (fal : σ → Bool)
    (oldOpt : Option σ) (newState : σ) (t : Nat) (ex1 ex2 : List String) :
    ∀ (l : List (String × Act σ ρ)),
      (∀ p ∈ l, ex1.contains p.2.id = ex2.contains p.2.id) →
      updInvocations cfg fal oldOpt newState t ex1 l
        = updInvocations cfg fal oldOpt newState t ex2 l := by
  intro l
  induction l with
  | nil => intro _; rfl
  | cons hd tl ih =>
      intro h
      simp only [updInvocations]
      rw [actionFires_congr cfg fal oldOpt newState t ex1 ex2 hd.2
          (h hd (List.mem_cons_self hd tl)),
        ih (fun p hp => h p (List.mem_cons_of_mem hd hp))]

lemma updFailures_congr {σ ρ : Type} (cfg : Config σ ρ) (fal : σ → Bool)
    (oldOpt : Option σ) (newState : σ) (t : Nat) (ex1 ex2 : List String) :
    ∀ (l : List (String × Act σ ρ)),
      (∀ p ∈ l, ex1.contains p.2.id = ex2.contains p.2.id) →
      updFailures cfg fal oldOpt newState t ex1 l
        = updFailures cfg fal oldOpt newState t ex2 l := by
  intro l
  induction l with
  | nil => intro _; rfl
  | cons hd tl ih =>
      intro h
      simp only [updFailures]
      rw [actionFires_congr cfg fal oldOpt newState t ex1 ex2 hd.2
          (h hd (List.mem_cons_self hd tl)),
        ih (fun p hp => h p (List.mem_cons_of_mem hd hp))]

/-- Fold-level characterization of one `updateState`'s action processing:
the log grows by each action's own fires (computed from the pre-update
tracker, hence independent of the other actions' outcomes), `onError` is
invoked exactly once per action whose synchronous execution throws, and
tracker membership of ids outside the list is untouched. -/
lemma processActions_spec {σ ρ : Type} (fal : σ → Bool) (oldOpt : Option σ)
    (newState : σ) (t : Nat) (cfg : Config σ ρ) :
    ∀ (l : List (String × Act σ ρ)) (e : Engine σ ρ), e.config = some cfg →
      ((l.map (fun p => p.2.id)).Nodup) →
      ((processActions fal oldOpt newState t e l).1.invocations
          = e.invocations ++ updInvocations cfg fal oldOpt newState t e.executingActions l)
      ∧ ((processActions fal oldOpt newState t e l).1.onErrorCount
          = e.onErrorCount
            + (if cfg.onError
               then updFailures cfg fal oldOpt newState t e.executingActions l else 0))
      ∧ (∀ j, ¬ j ∈ l.map (fun p => p.2.id) →
          (processActions fal oldOpt newState t e l).1.executingActions.contains j
            = e.executingActions.contains j)
      ∧ (processActions fal oldOpt newState t e l).1.config = e.config
      ∧ (processActions fal oldOpt newState t e l).1.currentState = e.currentState
      ∧ (processActions fal oldOpt newState t e l).1.previousState = e.previousState
      ∧ (processActions fal oldOpt newState t e l).1.uncaughtCount = e.uncaughtCount := by
  intro l
  induction l with
  | nil =>
      intro e hc _
      refine ⟨?_, ?_, ?_, ?_, ?_, ?_, ?_⟩ <;>
        simp [processActions, updInvocations, updFailures]
  | cons hd tl ih =>
      intro e hc hnd
      obtain ⟨k, a⟩ := hd
      obtain ⟨s1, s2, s3, s4, s5, s6, s7, s8, s9, s10⟩ :=
        processAction_spec fal oldOpt newState t cfg e a hc
      have hc1 : (e.processAction fal oldOpt newState t a).1.config = some cfg := by
        rw [s4, hc]
      have hnd1 : ((tl.map (fun p => p.2.id)).Nodup) := by
        simpa using hnd.of_cons
      have hna : ¬ a.id ∈ tl.map (fun p => p.2.id) := by
        have := hnd
        simp only [List.map_cons, List.nodup_cons] at this
        exact this.1
      obtain ⟨i1, i2, i3, i4, i5, i6, i7⟩ :=
        ih (e.processAction fal oldOpt newState t a).1 hc1 hnd1
      have hcontains : ∀ p ∈ tl,
          (e.processAction fal oldOpt newState t a).1.executingActions.contains p.2.id
            = e.executingActions.contains p.2.id := by
        intro p hp
        refine s3 p.2.id ?_
        intro hEq
        exact hna (hEq ▸ List.mem_map_of_mem (fun q => q.2.id) hp)
      refine ⟨?_, ?_, ?_, ?_, ?_, ?_, ?_⟩
      · show (processActions fal oldOpt newState t
            (e.processAction fal oldOpt newState t a).1 tl).1.invocations = _
        rw [i1, s1, updInvocations_congr cfg fal oldOpt newState t _ _ tl hcontains]
        simp [updInvocations, List.append_assoc]
      · show (processActions fal oldOpt newState t
            (e.processAction fal oldOpt newState t a).1 tl).1.onErrorCount = _
        rw [i2, s2, updFailures_congr cfg fal oldOpt newState t _ _ tl hcontains]
        cases hoe : cfg.onError with
        | false => simp [hoe, updFailures, Nat.add_assoc, Bool.false_and]
        | true =>
            by_cases hx : ((actionFires cfg fal oldOpt newState t e.executingActions a).any
                (fun f => a.execBeh f.2)) = true
            · simp [hoe, updFailures, Nat.add_assoc, hx]
            · simp [hoe, updFailures, Nat.add_assoc, hx]
      · intro j hj
        have hj1 : ¬ j = a.id := by
          intro hEq
          exact hj (by simp [hEq])
        have hj2 : ¬ j ∈ tl.map (fun p => p.2.id) := by
          intro hmem
          exact hj (by simp [hmem])
        show (processActions fal oldOpt newState t
            (e.processAction fal oldOpt newState t a).1 tl).1.executingActions.contains j = _
        rw [i3 j hj2, s3 j hj1]
      · show (processActions fal oldOpt newState t
            (e.processAction fal oldOpt newState t a).1 tl).1.config = _
        rw [i4, s4]
      · show (processActions fal oldOpt newState t
            (e.processAction fal oldOpt newState t a).1 tl).1.currentState = _
        rw [i5, s5]
      · show (processActions fal oldOpt newState t
            (e.processAction fal oldOpt newState t a).1 tl).1.previousState = _
        rw [i6, s6]
      · show (processActions fal oldOpt newState t
            (e.processAction fal oldOpt newState t a).1 tl).1.uncaughtCount = _
        rw [i7, s7]

/-- C4: on a configured, non-destroyed engine (with distinct action ids),
`updateState` returns normally with: the invocation log extended by exactly
the fires of every action whose trigger, conditions and re-entry guard pass
— a formula over the pre-update engine that does not mention any action's
outcome, so one action's throwing execute never aborts the processing of the
others; `onError` invoked exactly once per action whose synchronous
execution threw (when a callback is configured, else absorbed); and the
state pair shifted to (previous = old current, current = new state).  No
error propagates: every throw is consumed inside the per-action catch and
`Promise.allSettled`. -/
theorem updateState_isolation {σ ρ : Type} (e : Engine σ ρ) (fal : σ → Bool) (s : σ)
    (t : Nat) (cfg : Config σ ρ) (hc : e.config = some cfg) (hd : e.isDestroyed = false)
    (hn : (e.actions.map (fun p => p.2.id)).Nodup) :
    ((e.updateState fal s t).invocations
        = e.invocations
          ++ updInvocations cfg fal e.currentState s t e.executingActions e.actions)
    ∧ ((e.updateState fal s t).onErrorCount
        = e.onErrorCount
          + (if cfg.onError
             then updFailures cfg fal e.currentState s t e.executingActions e.actions
             else 0))
    ∧ (e.updateState fal s t).currentState = some s
    ∧ (e.updateState fal s t).previousState = e.currentState
    ∧ (e.updateState fal s t).uncaughtCount = e.uncaughtCount := by
  have hcn : e.config.isNone = false := by rw [hc]; rfl
  obtain ⟨p1, p2, p3, p4, p5, p6, p7⟩ :=
    processActions_spec fal e.currentState s t cfg e.actions
      { e with previousState := e.currentState, currentState := some s }
      (by simpa using hc) hn
  refine ⟨?_, ?_, ?_, ?_, ?_⟩ <;>
    simp only [Engine.updateState, hd, hcn, Bool.or_self, Bool.false_eq_true, if_false] <;>
    simp_all

def c4actA : ActionIn Nat Unit :=
  { id := some "a", trigger := fun _ _ _ => true, conditions := [],
    preventDefault := false, debounce := 0, throttle := 0, execBeh := fun _ => true }

def c4actB : ActionIn Nat Unit :=
  { c4actA with id := some "b", execBeh := fun _ => false }

def c4cfg : Config Nat Unit :=
  { state := 1, providers := (), actions := [c4actA, c4actB], onError := true,
    debug := false }

def c4e : Engine Nat Unit := okOr (Engine.start.configure c4cfg) Engine.start

theorem updateState_isolation_witness :
    ((c4e.updateState natFal 2 0).invocations
        = c4e.invocations
          ++ updInvocations c4cfg natFal c4e.currentState 2 0 c4e.executingActions
              c4e.actions)
    ∧ ((c4e.updateState natFal 2 0).onErrorCount
        = c4e.onErrorCount
          + (if c4cfg.onError
             then updFailures c4cfg natFal c4e.currentState 2 0 c4e.executingActions
                 c4e.actions
             else 0))
    ∧ (c4e.updateState natFal 2 0).currentState = some 2
    ∧ (c4e.updateState natFal 2 0).previousState = c4e.currentState
    ∧ (c4e.updateState natFal 2 0).uncaughtCount = c4e.uncaughtCount :=
  updateState_isolation c4e natFal 2 0 c4cfg rfl rfl (by decide)

lemma tickActions_frame {σ ρ : Type} (T : Nat) :
    ∀ (l : List (String × Act σ ρ)) (e : Engine σ ρ),
      (tickActions T e l).1.onErrorCount = e.onErrorCount
      ∧ (tickActions T e l).1.pending = e.pending
      ∧ (tickActions T e l).1.executingActions = e.executingActions
      ∧ (tickActions T e l).1.nextExec = e.nextExec
      ∧ (tickActions T e l).1.config = e.config
      ∧ (tickActions T e l).1.isDestroyed = e.isDestroyed
      ∧ ((tickActions T e l).2.map (fun p => (p.1, p.2.id, p.2.preventDefault))
          = l.map (fun p => (p.1, p.2.id, p.2.preventDefault))) := by
  intro l
  induction l with
  | nil => intro e; refine ⟨?_, ?_, ?_, ?_, ?_, ?_, ?_⟩ <;> simp [tickActions]
  | cons hd tl ih =>
      intro e
      obtain ⟨k, a⟩ := hd
      obtain ⟨i1, i2, i3, i4, i5, i6, i7⟩ := ih
        { e with
          invocations := e.invocations
            ++ (WState.advance a.w T).2.map (fun f => (a.id, f.2.state)),
          uncaughtCount := e.uncaughtCount
            + ((WState.advance a.w T).2.filter (fun f => a.execBeh f.2)).length }
      refine ⟨?_, ?_, ?_, ?_, ?_, ?_, ?_⟩ <;> simp [tickActions] <;> simp_all

/-- Whether an `onError` callback is currently registered. -/
def onErrorRegistered {σ ρ : Type} (e : Engine σ ρ) : Bool :=
  match e.config with
  | some cfg => cfg.onError
  | none => false

lemma settle_onError_ok {σ ρ : Type} (e : Engine σ ρ) (n : Nat) :
    (e.settle n true).onErrorCount = e.onErrorCount := by
  unfold Engine.settle
  cases hfind : e.pending.find? (fun p => p.1 == n) <;> simp

lemma settle_onError_err {σ ρ : Type} (e : Engine σ ρ) (n : Nat) :
    (e.settle n false).onErrorCount
      = e.onErrorCount
        + (if (e.pending.any (fun p => p.1 == n)) && onErrorRegistered e
           then 1 else 0) := by
  unfold Engine.settle
  cases hfind : e.pending.find? (fun p => p.1 == n) with
  | none =>
      have hany : e.pending.any (fun p => p.1 == n) = false := by
        rw [List.any_eq_false]
        intro p hp
        have := List.find?_eq_none.mp hfind p hp
        simpa using this
      simp [hany]
  | some q =>
      have hmemq : q ∈ e.pending := List.mem_of_find?_eq_some hfind
      have hq : (q.1 == n) = true :=
        List.find?_some (p := fun (r : Nat × String) => r.1 == n) hfind
      have hany : e.pending.any (fun p => p.1 == n) = true := by
        rw [List.any_eq_true]
        exact ⟨q, hmemq, hq⟩
      cases hcfg : e.config with
      | none => simp [hany, onErrorRegistered, hcfg]
      | some cfg =>
          cases hoe : cfg.onError <;>
            simp [hany, onErrorRegistered, hcfg, hoe]

/-- C2 amended: `onError` is invoked exactly once per caught failure — a
synchronous throw out of the stored execute during `updateState`, or the
rejection of the awaited promise of an unwrapped execute (while the config
is present and a callback is registered) — and never for anything else: a
fulfilment never bumps it, and a clock tick never bumps it, so a failure of
a debounce- or throttle-deferred execute body is never reported. -/
theorem onError_caught_failures {σ ρ : Type} (e : Engine σ ρ) (fal : σ → Bool) :
    (∀ T, (e.tick T).onErrorCount = e.onErrorCount)
    ∧ (∀ n, (e.settle n true).onErrorCount = e.onErrorCount)
    ∧ (∀ n, (e.settle n false).onErrorCount
        = e.onErrorCount
          + (if (e.pending.any (fun p => p.1 == n)) && onErrorRegistered e
             then 1 else 0))
    ∧ (∀ (s : σ) (t : Nat) (cfg : Config σ ρ), e.config = some cfg →
        e.isDestroyed = false → (e.actions.map (fun p => p.2.id)).Nodup →
        (e.updateState fal s t).onErrorCount
          = e.onErrorCount
            + (if cfg.onError
               then updFailures cfg fal e.currentState s t e.executingActions e.actions
               else 0)) := by
  refine ⟨?_, ?_, ?_, ?_⟩
  · intro T
    have := (tickActions_frame T e.actions e).1
    simpa [Engine.tick] using this
  · intro n
    exact settle_onError_ok e n
  · intro n
    exact settle_onError_err e n
  · intro s t cfg hc hd hn
    exact (updateState_isolation e fal s t cfg hc hd hn).2.1

theorem onError_caught_failures_witness :
    (c2e.updateState natFal 2 0).onErrorCount
      = c2e.onErrorCount
        + (if c2cfg.onError
           then updFailures c2cfg natFal c2e.currentState 2 0 c2e.executingActions
               c2e.actions
           else 0) :=
  (onError_caught_failures c2e natFal).2.2.2 2 0 c2cfg rfl rfl (by decide)

/-- Number of in-flight awaited executions of the action with id `i`. -/
def Engine.pendCount {σ ρ : Type} (e : Engine σ ρ) (i : String) : Nat :=
  (e.pending.filter (fun p => p.2 == i)).length

/-- The `preventDefault` flag of the registered action with id `i`. -/
def pdOf {σ ρ : Type} (l : List (String × Act σ ρ)) (i : String) : Bool :=
  match mapGet l i with
  | some a => a.preventDefault
  | none => false

lemma mapGet_of_mem_nodup {β : Type} (m : List (String × β)) (k : String) (v : β)
    (h : (k, v) ∈ m) (hn : (m.map Prod.fst).Nodup) : mapGet m k = some v := by
  induction m with
  | nil => cases h
  | cons hd tl ih =>
      have hn1 : (hd.1 :: tl.map Prod.fst).Nodup := by
        simpa using hn
      have hhead : ¬ hd.1 ∈ tl.map Prod.fst := (List.nodup_cons.mp hn1).1
      have htl : (tl.map Prod.fst).Nodup := (List.nodup_cons.mp hn1).2
      rcases List.mem_cons.mp h with h1 | h1
      · rw [← h1]
        simp [mapGet, List.find?_cons]
      · have hk : ¬ (hd.1 == k) = true := by
          intro hEq
          have hEq2 : hd.1 = k := by simpa using hEq
          apply hhead
          rw [hEq2]
          exact List.mem_map_of_mem Prod.fst h1
        have := ih h1 htl
        simpa [mapGet, List.find?_cons, hk] using this

lemma mem_insertId_of_mem (l : List String) (i j : String) (h : j ∈ l) :
    j ∈ insertId l i := by
  unfold insertId
  split
  · exact h
  · exact List.mem_append_left _ h

/-- Invariant-preservation step for a branch that leaves `pending` and
`nextExec` alone and replaces the tracker by add-then-delete of the
processed action's id (synchronous throw, or a wrapped execute whose await
settles at once). -/
lemma inv_step_unchanged {σ ρ : Type} (e R : Engine σ ρ) (a : Act σ ρ)
    (hpend : R.pending = e.pending) (hnext : R.nextExec = e.nextExec)
    (hexec : R.executingActions = removeId (insertId e.executingActions a.id) a.id)
    (hact : R.actions = e.actions)
    (hpdid : pdOf e.actions a.id = a.preventDefault)
    (hnopend : a.preventDefault = true → ∀ p ∈ e.pending, ¬ p.2 = a.id)
    (hpn : (e.pending.map Prod.fst).Nodup)
    (hplt : ∀ p ∈ e.pending, p.1 < e.nextExec)
    (hpe : ∀ p ∈ e.pending, pdOf e.actions p.2 = true → p.2 ∈ e.executingActions)
    (hpc : ∀ i, pdOf e.actions i = true → e.pendCount i ≤ 1) :
    (R.actions = e.actions)
    ∧ ((R.pending.map Prod.fst).Nodup)
    ∧ (∀ p ∈ R.pending, p.1 < R.nextExec)
    ∧ (∀ p ∈ R.pending, pdOf e.actions p.2 = true → p.2 ∈ R.executingActions)
    ∧ (∀ i, pdOf e.actions i = true → R.pendCount i ≤ 1) := by
  refine ⟨hact, ?_, ?_, ?_, ?_⟩
  · rw [hpend]; exact hpn
  · rw [hpend, hnext]; exact hplt
  · rw [hpend, hexec]
    intro p hp hpdp
    by_cases hEq : p.2 = a.id
    · have hpdTrue : a.preventDefault = true := by rw [← hpdid, ← hEq]; exact hpdp
      exact absurd hEq (hnopend hpdTrue p hp)
    · rw [mem_removeId_iff _ _ _ hEq, mem_insertId_iff _ _ _ hEq]
      exact hpe p hp hpdp
  · intro i hi
    simpa [Engine.pendCount, hpend] using hpc i hi

/-- Invariant-preservation step for the unwrapped non-throwing branch: a
fresh pending entry for the processed action is appended and its id is added
to the tracker. -/
lemma inv_step_append {σ ρ : Type} (e R : Engine σ ρ) (a : Act σ ρ)
    (hpend : R.pending = e.pending ++ [(e.nextExec, a.id)])
    (hnext : R.nextExec = e.nextExec + 1)
    (hexec : R.executingActions = insertId e.executingActions a.id)
    (hact : R.actions = e.actions)
    (hpdid : pdOf e.actions a.id = a.preventDefault)
    (hnopend : a.preventDefault = true → ∀ p ∈ e.pending, ¬ p.2 = a.id)
    (hpn : (e.pending.map Prod.fst).Nodup)
    (hplt : ∀ p ∈ e.pending, p.1 < e.nextExec)
    (hpe : ∀ p ∈ e.pending, pdOf e.actions p.2 = true → p.2 ∈ e.executingActions)
    (hpc : ∀ i, pdOf e.actions i = true → e.pendCount i ≤ 1) :
    (R.actions = e.actions)
    ∧ ((R.pending.map Prod.fst).Nodup)
    ∧ (∀ p ∈ R.pending, p.1 < R.nextExec)
    ∧ (∀ p ∈ R.pending, pdOf e.actions p.2 = true → p.2 ∈ R.executingActions)
    ∧ (∀ i, pdOf e.actions i = true → R.pendCount i ≤ 1) := by
  refine ⟨hact, ?_, ?_, ?_, ?_⟩
  · rw [hpend, List.map_append]
    rw [List.nodup_append]
    refine ⟨hpn, List.nodup_singleton _, ?_⟩
    intro x hx hx2
    obtain ⟨p, hp, hpx⟩ := List.mem_map.mp hx
    have : x = e.nextExec := by simpa using hx2
    rw [this] at hpx
    exact absurd hpx (Nat.ne_of_lt (hplt p hp))
  · rw [hpend, hnext]
    intro p hp
    rcases List.mem_append.mp hp with hp1 | hp1
    · exact Nat.lt_succ_of_lt (hplt p hp1)
    · rw [List.mem_singleton.mp hp1]
      exact Nat.lt_succ_self _
  · rw [hpend, hexec]
    intro p hp hpdp
    rcases List.mem_append.mp hp with hp1 | hp1
    · exact mem_insertId_of_mem _ _ _ (hpe p hp1 hpdp)
    · rw [List.mem_singleton.mp hp1]
      exact mem_insertId_self _ _
  · intro i hi
    simp only [Engine.pendCount, hpend, List.filter_append]
    by_cases hEq : a.id = i
    · have hpdTrue : a.preventDefault = true := by rw [← hpdid, hEq]; exact hi
      have hempty : e.pending.filter (fun p => p.2 == i) = [] := by
        rw [List.filter_eq_nil_iff]
        intro p hp
        simp only [beq_iff_eq]
        intro hEq2
        exact hnopend hpdTrue p hp (by rw [hEq2, ← hEq])
      rw [hempty]
      simp [hEq]
    · have hne : (a.id == i) = false := by simp [hEq]
      rw [List.length_append]
      have h2 : ([(e.nextExec, a.id)].filter (fun p => p.2 == i)).length = 0 := by
        simp [hne]
      rw [h2]
      simpa [Engine.pendCount] using hpc i hi

/-- Per-action preservation of the tracker/pending invariant: processing one
registered action keeps the pending ids fresh and distinct, keeps every
pending preventDefault action's id inside the tracker, and keeps at most one
in-flight awaited execution per preventDefault id. -/
lemma processAction_inv {σ ρ : Type} (fal : σ → Bool) (oldOpt : Option σ)
    (newState : σ) (t : Nat) (e : Engine σ ρ) (a : Act σ ρ)
    (hmem : (a.id, a) ∈ e.actions)
    (hkeys : (e.actions.map Prod.fst).Nodup)
    (hpn : (e.pending.map Prod.fst).Nodup)
    (hplt : ∀ p ∈ e.pending, p.1 < e.nextExec)
    (hpe : ∀ p ∈ e.pending, pdOf e.actions p.2 = true → p.2 ∈ e.executingActions)
    (hpc : ∀ i, pdOf e.actions i = true → e.pendCount i ≤ 1) :
    ((e.processAction fal oldOpt newState t a).1.actions = e.actions)
    ∧ (((e.processAction fal oldOpt newState t a).1.pending.map Prod.fst).Nodup)
    ∧ (∀ p ∈ (e.processAction fal oldOpt newState t a).1.pending,
        p.1 < (e.processAction fal oldOpt newState t a).1.nextExec)
    ∧ (∀ p ∈ (e.processAction fal oldOpt newState t a).1.pending,
        pdOf e.actions p.2 = true →
          p.2 ∈ (e.processAction fal oldOpt newState t a).1.executingActions)
    ∧ (∀ i, pdOf e.actions i = true →
        (e.processAction fal oldOpt newState t a).1.pendCount i ≤ 1) := by
  have hpdid : pdOf e.actions a.id = a.preventDefault := by
    unfold pdOf
    rw [mapGet_of_mem_nodup e.actions a.id a hmem hkeys]
  cases hcfg : e.config with
  | none =>
      have hR : (e.processAction fal oldOpt newState t a).1 = e := by
        cases oldOpt <;> simp [Engine.processAction, hcfg]
      rw [hR]
      exact ⟨rfl, hpn, hplt, hpe, hpc⟩
  | some cfg =>
  cases oldOpt with
  | none =>
      have hR : (e.processAction fal none newState t a).1 = e := by
        simp [Engine.processAction, hcfg]
      rw [hR]
      exact ⟨rfl, hpn, hplt, hpe, hpc⟩
  | some old =>
  by_cases hf : fal old = true
  · have hR : (e.processAction fal (some old) newState t a).1 = e := by
      simp [Engine.processAction, hcfg, hf]
    rw [hR]
    exact ⟨rfl, hpn, hplt, hpe, hpc⟩
  · by_cases htr : a.trigger old newState t = true
    swap
    · have hR : (e.processAction fal (some old) newState t a).1 = e := by
        simp [Engine.processAction, hcfg, hf, htr]
      rw [hR]
      exact ⟨rfl, hpn, hplt, hpe, hpc⟩
    · by_cases hcond :
        (a.conditions.all (fun c => c
          ({ state := newState, providers := cfg.providers, trigger := a.id,
             timestamp := t, previousState := old } : Ctx σ ρ))) = true
      swap
      · have hR : (e.processAction fal (some old) newState t a).1 = e := by
          simp [Engine.processAction, hcfg, hf, htr, hcond]
        rw [hR]
        exact ⟨rfl, hpn, hplt, hpe, hpc⟩
      · by_cases hpd : a.preventDefault = true ∧ a.id ∈ e.executingActions
        · have hR : (e.processAction fal (some old) newState t a).1 = e := by
            simp [Engine.processAction, hcfg, hf, htr, hcond, hpd]
          rw [hR]
          exact ⟨rfl, hpn, hplt, hpe, hpc⟩
        · have hnopd : a.preventDefault = true → ¬ a.id ∈ e.executingActions := by
            intro h1 h2
            exact hpd ⟨h1, h2⟩
          have hnopend : a.preventDefault = true →
              ∀ p ∈ e.pending, ¬ p.2 = a.id := by
            intro h1 p hp hEq
            exact hnopd h1 (hEq ▸ hpe p hp (by rw [hEq, hpdid]; exact h1))
          by_cases hth :
            ((WState.call a.w t
              ({ state := newState, providers := cfg.providers, trigger := a.id,
                 timestamp := t, previousState := old } : Ctx σ ρ)).2.any
              (fun f => a.execBeh f.2)) = true
          · -- synchronous throw: caught, id added then removed, pending untouched
            rcases Bool.eq_false_or_eq_true cfg.onError with hoe | hoe <;>
              refine inv_step_unchanged e _ a ?_ ?_ ?_ ?_ hpdid hnopend hpn hplt hpe hpc <;>
                simp [Engine.processAction, hcfg, hf, htr, hcond, hpd, hth, hoe]
          · cases hw : a.w with
            | base =>
                rw [hw] at hth
                simp only [WState.call, List.any_cons, List.any_nil,
                  Bool.or_false] at hth
                refine inv_step_append e _ a ?_ ?_ ?_ ?_ hpdid hnopend hpn hplt hpe hpc <;>
                  simp [Engine.processAction, hcfg, hf, htr, hcond, hpd, hw,
                    WState.call, hth]
            | deb d pnd inner =>
                refine inv_step_unchanged e _ a ?_ ?_ ?_ ?_ hpdid hnopend hpn hplt hpe hpc <;>
                  simp [Engine.processAction, hcfg, hf, htr, hcond, hpd, hw, WState.call]
            | thr lm r inner =>
                rw [hw] at hth
                by_cases hready : r ≤ t
                · simp only [WState.call, hready, if_true] at hth
                  refine inv_step_unchanged e _ a ?_ ?_ ?_ ?_ hpdid hnopend hpn hplt hpe
                      hpc <;>
                    simp [Engine.processAction, hcfg, hf, htr, hcond, hpd, hw,
                      WState.call, hready, hth]
                · refine inv_step_unchanged e _ a ?_ ?_ ?_ ?_ hpdid hnopend hpn hplt hpe
                      hpc <;>
                    simp [Engine.processAction, hcfg, hf, htr, hcond, hpd, hw,
                      WState.call, hready]

lemma processAction_act_fields {σ ρ : Type} (fal : σ → Bool) (oldOpt : Option σ)
    (newState : σ) (t : Nat) (e : Engine σ ρ) (a : Act σ ρ) :
    (e.processAction fal oldOpt newState t a).2.id = a.id
    ∧ (e.processAction fal oldOpt newState t a).2.preventDefault = a.preventDefault := by
  cases hcfg : e.config with
  | none => cases oldOpt <;> simp [Engine.processAction, hcfg]
  | some cfg =>
      cases oldOpt with
      | none => simp [Engine.processAction, hcfg]
      | some old =>
          refine ⟨?_, ?_⟩ <;>
            (simp only [Engine.processAction, hcfg]
             repeat' split) <;> rfl

lemma processActions_sig {σ ρ : Type} (fal : σ → Bool) (oldOpt : Option σ)
    (newState : σ) (t : Nat) :
    ∀ (l : List (String × Act σ ρ)) (e : Engine σ ρ),
      (processActions fal oldOpt newState t e l).2.map
          (fun p => (p.1, p.2.id, p.2.preventDefault))
        = l.map (fun p => (p.1, p.2.id, p.2.preventDefault)) := by
  intro l
  induction l with
  | nil => intro e; rfl
  | cons hd tl ih =>
      intro e
      obtain ⟨k, a⟩ := hd
      obtain ⟨h1, h2⟩ := processAction_act_fields fal oldOpt newState t e a
      simp only [processActions, List.map_cons, ih, h1, h2]

lemma keys_of_sig {σ ρ : Type} (l l' : List (String × Act σ ρ))
    (h : l'.map (fun p => (p.1, p.2.id, p.2.preventDefault))
          = l.map (fun p => (p.1, p.2.id, p.2.preventDefault))) :
    l'.map Prod.fst = l.map Prod.fst := by
  have h2 := congrArg (List.map (fun q : String × String × Bool => q.1)) h
  simpa [List.map_map, Function.comp] using h2

lemma keyMatch_of_sig {σ ρ : Type} :
    ∀ (l' l : List (String × Act σ ρ)),
      l'.map (fun p => (p.1, p.2.id, p.2.preventDefault))
          = l.map (fun p => (p.1, p.2.id, p.2.preventDefault)) →
      (∀ p ∈ l, p.2.id = p.1) → ∀ p ∈ l', p.2.id = p.1 := by
  intro l'
  induction l' with
  | nil => intro l _ _ p hp; cases hp
  | cons hd' tl' ih =>
      intro l h hk p hp
      cases l with
      | nil => exact absurd h (by simp)
      | cons hd tl =>
          simp only [List.map_cons, List.cons.injEq] at h
          obtain ⟨hhead, htail⟩ := h
          rcases List.mem_cons.mp hp with h1 | h1
          · have hid : hd'.2.id = hd.2.id := by
              have := congrArg (fun q : String × String × Bool => q.2.1) hhead
              simpa using this
            have hkey : hd'.1 = hd.1 := by
              have := congrArg (fun q : String × String × Bool => q.1) hhead
              simpa using this
            rw [h1, hid, hkey]
            exact hk hd (List.mem_cons_self hd tl)
          · exact ih tl htail (fun q hq => hk q (List.mem_cons_of_mem hd hq)) p h1

lemma pdOf_of_sig {σ ρ : Type} :
    ∀ (l' l : List (String × Act σ ρ)),
      l'.map (fun p => (p.1, p.2.id, p.2.preventDefault))
          = l.map (fun p => (p.1, p.2.id, p.2.preventDefault)) →
      ∀ i, pdOf l' i = pdOf l i := by
  intro l'
  induction l' with
  | nil =>
      intro l h i
      cases l with
      | nil => rfl
      | cons hd tl => exact absurd h (by simp)
  | cons hd' tl' ih =>
      intro l h i
      cases l with
      | nil => exact absurd h (by simp)
      | cons hd tl =>
          simp only [List.map_cons, List.cons.injEq] at h
          obtain ⟨hhead, htail⟩ := h
          have hkey : hd'.1 = hd.1 := by
            have := congrArg (fun q : String × String × Bool => q.1) hhead
            simpa using this
          have hpd : hd'.2.preventDefault = hd.2.preventDefault := by
            have := congrArg (fun q : String × String × Bool => q.2.2) hhead
            simpa using this
          by_cases hkeyi : (hd.1 == i) = true
          · simp [pdOf, mapGet, List.find?_cons, hkey, hkeyi, hpd]
          · have := ih tl htail i
            simpa [pdOf, mapGet, List.find?_cons, hkey, hkeyi] using this

/-- Fold-level preservation of the tracker/pending invariant over one
`updateState`'s action processing. -/
lemma processActions_inv {σ ρ : Type} (fal : σ → Bool) (oldOpt : Option σ)
    (newState : σ) (t : Nat) :
    ∀ (l : List (String × Act σ ρ)) (e : Engine σ ρ),
      (∀ p ∈ l, p ∈ e.actions) →
      (∀ p ∈ e.actions, p.2.id = p.1) →
      ((e.actions.map Prod.fst).Nodup) →
      ((e.pending.map Prod.fst).Nodup) →
      (∀ p ∈ e.pending, p.1 < e.nextExec) →
      (∀ p ∈ e.pending, pdOf e.actions p.2 = true → p.2 ∈ e.executingActions) →
      (∀ i, pdOf e.actions i = true → e.pendCount i ≤ 1) →
      ((processActions fal oldOpt newState t e l).1.actions = e.actions)
      ∧ (((processActions fal oldOpt newState t e l).1.pending.map Prod.fst).Nodup)
      ∧ (∀ p ∈ (processActions fal oldOpt newState t e l).1.pending,
          p.1 < (processActions fal oldOpt newState t e l).1.nextExec)
      ∧ (∀ p ∈ (processActions fal oldOpt newState t e l).1.pending,
          pdOf e.actions p.2 = true →
            p.2 ∈ (processActions fal oldOpt newState t e l).1.executingActions)
      ∧ (∀ i, pdOf e.actions i = true →
          (processActions fal oldOpt newState t e l).1.pendCount i ≤ 1) := by
  intro l
  induction l with
  | nil =>
      intro e _ _ _ hpn hplt hpe hpc
      exact ⟨rfl, hpn, hplt, hpe, hpc⟩
  | cons hd tl ih =>
      intro e hl hkm hkeys hpn hplt hpe hpc
      obtain ⟨k, a⟩ := hd
      have hmem0 : (k, a) ∈ e.actions := hl (k, a) (List.mem_cons_self _ tl)
      have hka : a.id = k := hkm (k, a) hmem0
      have hmem : (a.id, a) ∈ e.actions := by rw [hka]; exact hmem0
      obtain ⟨c1, c2, c3, c4, c5⟩ :=
        processAction_inv fal oldOpt newState t e a hmem hkeys hpn hplt hpe hpc
      obtain ⟨d1, d2, d3, d4, d5⟩ :=
        ih (e.processAction fal oldOpt newState t a).1
          (by intro p hp; rw [c1]; exact hl p (List.mem_cons_of_mem _ hp))
          (by rw [c1]; exact hkm) (by rw [c1]; exact hkeys)
          c2 c3 (by rw [c1]; exact c4) (by rw [c1]; exact c5)
      rw [c1] at d1 d4 d5
      exact ⟨d1, d2, d3, d4, d5⟩

/-- The engine invariant tied to the preventDefault re-entry guard: action
map keys are the stored ids and are distinct; ids of in-flight awaited
executions are distinct and below the freshness counter; every in-flight
preventDefault action's id sits in the execution tracker; and each
preventDefault id has at most one in-flight awaited execution. -/
structure Inv {σ ρ : Type} (e : Engine σ ρ) : Prop where
  keyMatch : ∀ p ∈ e.actions, p.2.id = p.1
  keysNodup : (e.actions.map Prod.fst).Nodup
  pendNodup : (e.pending.map Prod.fst).Nodup
  pendLt : ∀ p ∈ e.pending, p.1 < e.nextExec
  pdExec : ∀ p ∈ e.pending, pdOf e.actions p.2 = true → p.2 ∈ e.executingActions
  pdCount : ∀ i, pdOf e.actions i = true → e.pendCount i ≤ 1

/-- Rebuild the invariant for an engine whose action list has the same keys,
ids and preventDefault flags as a reference engine's, given the pending and
tracker facts expressed against the reference action list. -/
lemma inv_of_parts {σ ρ : Type} (e R : Engine σ ρ)
    (hsig : R.actions.map (fun p => (p.1, p.2.id, p.2.preventDefault))
        = e.actions.map (fun p => (p.1, p.2.id, p.2.preventDefault)))
    (hpn : (R.pending.map Prod.fst).Nodup)
    (hplt : ∀ p ∈ R.pending, p.1 < R.nextExec)
    (hpe : ∀ p ∈ R.pending, pdOf e.actions p.2 = true → p.2 ∈ R.executingActions)
    (hpc : ∀ i, pdOf e.actions i = true → R.pendCount i ≤ 1)
    (hkm : ∀ p ∈ e.actions, p.2.id = p.1)
    (hkn : (e.actions.map Prod.fst).Nodup) : Inv R := by
  have hpdeq := pdOf_of_sig R.actions e.actions hsig
  refine ⟨?_, ?_, hpn, hplt, ?_, ?_⟩
  · exact keyMatch_of_sig R.actions e.actions hsig hkm
  · rw [keys_of_sig e.actions R.actions hsig]; exact hkn
  · intro p hp hpdp
    exact hpe p hp (by rw [← hpdeq p.2]; exact hpdp)
  · intro i hi
    exact hpc i (by rw [← hpdeq i]; exact hi)

lemma updateState_inv {σ ρ : Type} (e : Engine σ ρ) (fal : σ → Bool) (s : σ) (t : Nat)
    (h : Inv e) : Inv (e.updateState fal s t) := by
  by_cases hguard : (e.isDestroyed || e.config.isNone) = true
  · have hR : e.updateState fal s t = e := by
      simp only [Engine.updateState, hguard, if_true]
    rw [hR]; exact h
  · have e1def : Engine.updateState e fal s t
        = (let r := processActions fal e.currentState s t
            { e with previousState := e.currentState, currentState := some s }
            ({ e with previousState := e.currentState,
                      currentState := some s } : Engine σ ρ).actions
           { r.1 with actions := r.2 }) := by
      unfold Engine.updateState
      rw [if_neg hguard]
    obtain ⟨c1, c2, c3, c4, c5⟩ :=
      processActions_inv fal e.currentState s t e.actions
        { e with previousState := e.currentState, currentState := some s }
        (fun p hp => hp) h.keyMatch h.keysNodup h.pendNodup h.pendLt h.pdExec h.pdCount
    have hRact : (e.updateState fal s t).actions
        = (processActions fal e.currentState s t
            { e with previousState := e.currentState, currentState := some s }
            e.actions).2 := by
      rw [e1def]
    have hRpend : (e.updateState fal s t).pending
        = (processActions fal e.currentState s t
            { e with previousState := e.currentState, currentState := some s }
            e.actions).1.pending := by
      rw [e1def]
    have hRnext : (e.updateState fal s t).nextExec
        = (processActions fal e.currentState s t
            { e with previousState := e.currentState, currentState := some s }
            e.actions).1.nextExec := by
      rw [e1def]
    have hRexec : (e.updateState fal s t).executingActions
        = (processActions fal e.currentState s t
            { e with previousState := e.currentState, currentState := some s }
            e.actions).1.executingActions := by
      rw [e1def]
    refine inv_of_parts e (e.updateState fal s t) ?_ ?_ ?_ ?_ ?_ h.keyMatch h.keysNodup
    · rw [hRact]
      exact processActions_sig fal e.currentState s t e.actions _
    · rw [hRpend]; exact c2
    · rw [hRpend, hRnext]; exact c3
    · intro p hp hpdp
      rw [hRexec]
      rw [hRpend] at hp
      exact c4 p hp hpdp
    · intro i hi
      have hpceq : (e.updateState fal s t).pendCount i
          = (processActions fal e.currentState s t
              { e with previousState := e.currentState, currentState := some s }
              e.actions).1.pendCount i := by
        simp [Engine.pendCount, hRpend]
      rw [hpceq]
      exact c5 i hi

lemma settle_core {σ ρ : Type} (e R : Engine σ ρ) (q : Nat × String) (n : Nat)
    (hfind : e.pending.find? (fun p => p.1 == n) = some q)
    (hpend : R.pending = e.pending.filter (fun p => !(p.1 == n)))
    (hexec : R.executingActions = removeId e.executingActions q.2)
    (hnext : R.nextExec = e.nextExec) (hact : R.actions = e.actions)
    (hpn : (e.pending.map Prod.fst).Nodup)
    (hplt : ∀ p ∈ e.pending, p.1 < e.nextExec)
    (hpe : ∀ p ∈ e.pending, pdOf e.actions p.2 = true → p.2 ∈ e.executingActions)
    (hpc : ∀ i, pdOf e.actions i = true → e.pendCount i ≤ 1) :
    (R.actions = e.actions)
    ∧ ((R.pending.map Prod.fst).Nodup)
    ∧ (∀ p ∈ R.pending, p.1 < R.nextExec)
    ∧ (∀ p ∈ R.pending, pdOf e.actions p.2 = true → p.2 ∈ R.executingActions)
    ∧ (∀ i, pdOf e.actions i = true → R.pendCount i ≤ 1) := by
  have hqmem : q ∈ e.pending := List.mem_of_find?_eq_some hfind
  have hqn : (q.1 == n) = true :=
    List.find?_some (p := fun r => (r : Nat × String).1 == n) hfind
  refine ⟨hact, ?_, ?_, ?_, ?_⟩
  · rw [hpend]
    exact hpn.sublist ((List.filter_sublist e.pending).map Prod.fst)
  · rw [hpend, hnext]
    intro p hp
    exact hplt p (List.mem_of_mem_filter hp)
  · rw [hpend, hexec]
    intro p hp hpdp
    have hpmem : p ∈ e.pending := List.mem_of_mem_filter hp
    by_cases hEq : p.2 = q.2
    · exfalso
      have hcount := hpc q.2 (by rw [← hEq]; exact hpdp)
      have hpq : ¬ p = q := by
        intro hEq2
        have hppass : (!(p.1 == n)) = true := (List.mem_filter.mp hp).2
        rw [hEq2] at hppass
        rw [hqn] at hppass
        exact absurd hppass (by simp)
      have hpF : p ∈ e.pending.filter (fun r => r.2 == q.2) := by
        rw [List.mem_filter]
        exact ⟨hpmem, by simp [hEq]⟩
      have hqF : q ∈ e.pending.filter (fun r => r.2 == q.2) := by
        rw [List.mem_filter]
        exact ⟨hqmem, by simp⟩
      have hlen : (e.pending.filter (fun r => r.2 == q.2)).length ≤ 1 := by
        simpa [Engine.pendCount] using hcount
      rcases Nat.le_one_iff_eq_zero_or_eq_one.mp hlen with h0 | h1
      · rw [List.length_eq_zero.mp h0] at hpF
        cases hpF
      · obtain ⟨x, hx⟩ := List.length_eq_one.mp h1
        rw [hx] at hpF hqF
        exact hpq ((List.mem_singleton.mp hpF).trans (List.mem_singleton.mp hqF).symm)
    · rw [mem_removeId_iff _ _ _ hEq]
      exact hpe p hpmem hpdp
  · intro i hi
    have hsub : (R.pending.filter (fun p => p.2 == i)).length
        ≤ (e.pending.filter (fun p => p.2 == i)).length := by
      rw [hpend]
      exact ((List.filter_sublist e.pending).filter (fun p => p.2 == i)).length_le
    exact le_trans hsub (hpc i hi)

lemma settle_inv {σ ρ : Type} (e : Engine σ ρ) (n : Nat) (ok : Bool) (h : Inv e) :
    Inv (e.settle n ok) := by
  cases hfind : e.pending.find? (fun p => p.1 == n) with
  | none =>
      have hR : e.settle n ok = e := by
        simp [Engine.settle, hfind]
      rw [hR]; exact h
  | some q =>
      have hcore :
          ((e.settle n ok).actions = e.actions)
          ∧ (((e.settle n ok).pending.map Prod.fst).Nodup)
          ∧ (∀ p ∈ (e.settle n ok).pending, p.1 < (e.settle n ok).nextExec)
          ∧ (∀ p ∈ (e.settle n ok).pending,
              pdOf e.actions p.2 = true → p.2 ∈ (e.settle n ok).executingActions)
          ∧ (∀ i, pdOf e.actions i = true → (e.settle n ok).pendCount i ≤ 1) := by
        refine settle_core e _ q n hfind ?_ ?_ ?_ ?_
            h.pendNodup h.pendLt h.pdExec h.pdCount <;>
          cases ok <;> cases hcfg : e.config <;>
            first
              | (rename_i cfg
                 cases hoe : cfg.onError <;> simp [Engine.settle, hfind, hcfg, hoe])
              | simp [Engine.settle, hfind, hcfg]
      obtain ⟨c1, c2, c3, c4, c5⟩ := hcore
      refine ⟨?_, ?_, c2, c3, ?_, ?_⟩
      · rw [c1]; exact h.keyMatch
      · rw [c1]; exact h.keysNodup
      · intro p hp hpdp
        exact c4 p hp (by rw [← c1]; exact hpdp)
      · intro i hi
        exact c5 i (by rw [← c1]; exact hi)

lemma tick_inv {σ ρ : Type} (e : Engine σ ρ) (T : Nat) (h : Inv e) :
    Inv (e.tick T) := by
  obtain ⟨f1, f2, f3, f4, f5, f6, f7⟩ := tickActions_frame T e.actions e
  have hpend : (e.tick T).pending = e.pending := by
    simpa [Engine.tick] using f2
  have hexec : (e.tick T).executingActions = e.executingActions := by
    simpa [Engine.tick] using f3
  have hnext : (e.tick T).nextExec = e.nextExec := by
    simpa [Engine.tick] using f4
  have hact : (e.tick T).actions = (tickActions T e e.actions).2 := by
    simp [Engine.tick]
  have hsig : (e.tick T).actions.map (fun p => (p.1, p.2.id, p.2.preventDefault))
      = e.actions.map (fun p => (p.1, p.2.id, p.2.preventDefault)) := by
    rw [hact]; exact f7
  refine inv_of_parts e (e.tick T) hsig ?_ ?_ ?_ ?_ h.keyMatch h.keysNodup
  · rw [hpend]; exact h.pendNodup
  · rw [hpend, hnext]; exact h.pendLt
  · intro p hp hpdp
    rw [hexec]
    rw [hpend] at hp
    exact h.pdExec p hp hpdp
  · intro i hi
    have hpceq : (e.tick T).pendCount i = e.pendCount i := by
      simp [Engine.pendCount, hpend]
    rw [hpceq]
    exact h.pdCount i hi

lemma step_inv {σ ρ : Type} (fal : σ → Bool) (e : Engine σ ρ) (ev : Ev σ)
    (h : Inv e) : Inv (step fal e ev) := by
  cases ev with
  | update s t => exact updateState_inv e fal s t h
  | settleOk n => exact settle_inv e n true h
  | settleErr n => exact settle_inv e n false h
  | tick T => exact tick_inv e T h

lemma run_inv {σ ρ : Type} (fal : σ → Bool) :
    ∀ (evs : List (Ev σ)) (e : Engine σ ρ), Inv e → Inv (run fal e evs) := by
  intro evs
  induction evs with
  | nil => intro e h; exact h
  | cons ev rest ih =>
      intro e h
      exact ih (step fal e ev) (step_inv fal e ev h)

/-- C1: starting from any engine satisfying the basic well-formedness
invariant (in particular any freshly configured engine), after any sequence
of state updates, promise settlements and timer ticks, every action
registered with `preventDefault = true` has at most one in-flight awaited
execution, and while one is in flight its id stays in the execution tracker
— which is exactly what makes a second overlapping transition skip the
action instead of invoking its execute again. -/
theorem preventDefault_single_execution {σ ρ : Type} (fal : σ → Bool)
    (e0 : Engine σ ρ) (evs : List (Ev σ)) (h : Inv e0) :
    (∀ p ∈ (run fal e0 evs).pending,
        pdOf (run fal e0 evs).actions p.2 = true →
          p.2 ∈ (run fal e0 evs).executingActions)
    ∧ (∀ i, pdOf (run fal e0 evs).actions i = true →
        (run fal e0 evs).pendCount i ≤ 1) :=
  ⟨(run_inv fal evs e0 h).pdExec, (run_inv fal evs e0 h).pdCount⟩

def c1act : ActionIn Nat Unit :=
  { id := some "a", trigger := fun _ _ _ => true, conditions := [],
    preventDefault := true, debounce := 0, throttle := 0, execBeh := fun _ => false }

def c1cfg : Config Nat Unit :=
  { state := 1, providers := (), actions := [c1act], onError := false, debug := false }

def c1e : Engine Nat Unit := okOr (Engine.start.configure c1cfg) Engine.start

lemma c1e_inv : Inv c1e := by
  have hact : c1e.actions = [("a", storedAction "a" c1act)] := rfl
  have hpend : c1e.pending = [] := rfl
  refine ⟨?_, ?_, ?_, ?_, ?_, ?_⟩
  · intro p hp
    rw [hact] at hp
    rw [List.mem_singleton.mp hp]
    rfl
  · rw [hact]; simp
  · rw [hpend]; simp
  · intro p hp; rw [hpend] at hp; cases hp
  · intro p hp; rw [hpend] at hp; cases hp
  · intro i _
    simp [Engine.pendCount, hpend]

theorem preventDefault_single_execution_witness :
    (run natFal c1e [Ev.update 2 0, Ev.update 3 1]).pendCount "a" ≤ 1 :=
  (preventDefault_single_execution natFal c1e [Ev.update 2 0, Ev.update 3 1]
      c1e_inv).2 "a" (by decide)

lemma addAction_frame {σ ρ : Type} (e : Engine σ ρ) (a : ActionIn σ ρ) :
    ((e.addAction a).config = e.config)
    ∧ ((e.addAction a).currentState = e.currentState)
    ∧ ((e.addAction a).previousState = e.previousState) := by
  cases ha : a.id <;> simp [Engine.addAction, ha]

lemma foldl_addAction_frame {σ ρ : Type} :
    ∀ (l : List (ActionIn σ ρ)) (e : Engine σ ρ),
      ((l.foldl Engine.addAction e).config = e.config)
      ∧ ((l.foldl Engine.addAction e).currentState = e.currentState)
      ∧ ((l.foldl Engine.addAction e).previousState = e.previousState) := by
  intro l
  induction l with
  | nil => intro e; exact ⟨rfl, rfl, rfl⟩
  | cons b tl ih =>
      intro e
      obtain ⟨h1, h2, h3⟩ := addAction_frame e b
      obtain ⟨i1, i2, i3⟩ := ih (e.addAction b)
      exact ⟨i1.trans h1, i2.trans h2, i3.trans h3⟩

lemma repl_pred_self {β : Type} (k : String) (v : β) :
    ((fun p : String × β => p.1 == k) ∘ (fun p => if p.1 == k then (k, v) else p))
      = fun p : String × β => p.1 == k := by
  funext p
  by_cases h : (p.1 == k) = true <;> simp [Function.comp, h]

lemma repl_pred_other {β : Type} (k j : String) (v : β) (hkj : ¬ k = j) :
    ((fun p : String × β => p.1 == j) ∘ (fun p => if p.1 == k then (k, v) else p))
      = fun p : String × β => p.1 == j := by
  funext p
  by_cases h : (p.1 == k) = true
  · have hpk : p.1 = k := by simpa using h
    simp [Function.comp, h, hpk, hkj]
  · simp [Function.comp, h]

lemma mapGet_map_replace {β : Type} (k : String) (v : β) (m : List (String × β))
    (hany : m.any (fun p => p.1 == k) = true) :
    mapGet (m.map (fun p => if p.1 == k then (k, v) else p)) k = some v := by
  have hsome : (m.find? (fun p => p.1 == k)).isSome := by
    rw [List.find?_isSome]
    obtain ⟨q, hq, hqk⟩ := List.any_eq_true.mp hany
    exact ⟨q, hq, hqk⟩
  obtain ⟨r, hr⟩ := Option.isSome_iff_exists.mp hsome
  have hrk : (r.1 == k) = true :=
    List.find?_some (p := fun p : String × β => p.1 == k) hr
  have hrk2 : r.1 = k := by simpa using hrk
  unfold mapGet
  rw [List.find?_map, repl_pred_self k v, hr]
  simp [hrk2]

lemma mapGet_append_single {β : Type} (k : String) (v : β) (m : List (String × β))
    (hany : m.any (fun p => p.1 == k) = false) :
    mapGet (m ++ [(k, v)]) k = some v := by
  have hnone : m.find? (fun p => p.1 == k) = none :=
    List.find?_eq_none.mpr (by simpa using List.any_eq_false.mp hany)
  simp [mapGet, List.find?_append, hnone, List.find?_cons]

lemma mapGet_mapSet_self {β : Type} (m : List (String × β)) (k : String) (v : β) :
    mapGet (mapSet m k v) k = some v := by
  unfold mapSet
  by_cases hany : m.any (fun p => p.1 == k) = true
  · rw [if_pos hany]
    exact mapGet_map_replace k v m hany
  · rw [if_neg hany]
    exact mapGet_append_single k v m (Bool.eq_false_iff.mpr hany)

lemma mapGet_mapSet_other {β : Type} (k j : String) (v : β) (hkj : ¬ k = j)
    (m : List (String × β)) : mapGet (mapSet m k v) j = mapGet m j := by
  have hkjb : (k == j) = false := by simp [hkj]
  unfold mapSet
  split
  · unfold mapGet
    rw [List.find?_map, repl_pred_other k j v hkj]
    cases hr : m.find? (fun p => p.1 == j) with
    | none => rfl
    | some r =>
        have hrj : (r.1 == j) = true :=
          List.find?_some (p := fun p : String × β => p.1 == j) hr
        have hrj2 : r.1 = j := by simpa using hrj
        have hrnk : ¬ r.1 = k := by
          rw [hrj2]
          intro hEq
          exact hkj hEq.symm
        simp [hrnk]
  · simp [mapGet, List.find?_append, List.find?_cons, hkjb]

lemma addAction_mapGet_self {σ ρ : Type} (e : Engine σ ρ) (a : ActionIn σ ρ)
    (i : String) (ha : a.id = some i) :
    mapGet (e.addAction a).actions i = some (storedAction i a) := by
  simp only [Engine.addAction, ha]
  exact mapGet_mapSet_self e.actions i (storedAction i a)

lemma addAction_mapGet_other {σ ρ : Type} (e : Engine σ ρ) (a : ActionIn σ ρ)
    (i j : String) (ha : a.id = some i) (hij : ¬ i = j) :
    mapGet (e.addAction a).actions j = mapGet e.actions j := by
  simp only [Engine.addAction, ha]
  exact mapGet_mapSet_other i j (storedAction i a) hij e.actions

lemma foldl_addAction_mapGet_frame {σ ρ : Type} (i : String) :
    ∀ (l : List (ActionIn σ ρ)) (e : Engine σ ρ),
      (∀ b ∈ l, ∃ j, b.id = some j ∧ ¬ j = i) →
      mapGet ((l.foldl Engine.addAction e).actions) i = mapGet e.actions i := by
  intro l
  induction l with
  | nil => intro e _; rfl
  | cons b tl ih =>
      intro e hl
      obtain ⟨j, hj, hji⟩ := hl b (List.mem_cons_self b tl)
      have := ih (e.addAction b) (fun c hc => hl c (List.mem_cons_of_mem b hc))
      rw [List.foldl_cons, this, addAction_mapGet_other e b j i hj hji]

lemma foldl_addAction_mapGet {σ ρ : Type} :
    ∀ (l : List (ActionIn σ ρ)) (e : Engine σ ρ),
      (∀ b ∈ l, b.id.isSome) → ((l.filterMap ActionIn.id).Nodup) →
      ∀ a ∈ l, ∀ i, a.id = some i →
        mapGet ((l.foldl Engine.addAction e).actions) i = some (storedAction i a) := by
  intro l
  induction l with
  | nil => intro e _ _ a ha; cases ha
  | cons b tl ih =>
      intro e hids hnd a ha i hai
      rcases List.mem_cons.mp ha with h1 | h1
      · subst h1
        have hbid : a.id = some i := hai
        have hnd2 : (i :: tl.filterMap ActionIn.id).Nodup := by
          simpa [List.filterMap_cons, hbid] using hnd
        have hout : ¬ i ∈ tl.filterMap ActionIn.id := (List.nodup_cons.mp hnd2).1
        have hframe : ∀ c ∈ tl, ∃ j, c.id = some j ∧ ¬ j = i := by
          intro c hc
          have hcs := hids c (List.mem_cons_of_mem a hc)
          obtain ⟨j, hj⟩ := Option.isSome_iff_exists.mp hcs
          refine ⟨j, hj, ?_⟩
          intro hEq
          apply hout
          rw [← hEq]
          exact List.mem_filterMap.mpr ⟨c, hc, hj⟩
        rw [List.foldl_cons,
          foldl_addAction_mapGet_frame i tl (e.addAction a) hframe,
          addAction_mapGet_self e a i hbid]
      · have hbsome := hids b (List.mem_cons_self b tl)
        obtain ⟨jb, hjb⟩ := Option.isSome_iff_exists.mp hbsome
        have hnd2 : (jb :: tl.filterMap ActionIn.id).Nodup := by
          simpa [List.filterMap_cons, hjb] using hnd
        rw [List.foldl_cons]
        exact ih (e.addAction b) (fun c hc => hids c (List.mem_cons_of_mem b hc))
          (List.nodup_cons.mp hnd2).2 a h1 i hai

/-- C9 amended: a successful `configure` call on a non-destroyed engine —
including a second call on an already-configured engine — stores the config
(error callback and provider map included), sets the current state to the
supplied state, and registers each supplied action, wrapped, via the
add-action path; but it leaves `previousState` exactly as it was: null only
on a first configure, retained across a reconfigure. -/
theorem configure_spec {σ ρ : Type} (e : Engine σ ρ) (cfg : Config σ ρ)
    (hd : e.isDestroyed = false)
    (hids : ∀ a ∈ cfg.actions, a.id.isSome)
    (hnd : (cfg.actions.filterMap ActionIn.id).Nodup) :
    ((e.configure cfg).toOption.map Engine.currentState = some (some cfg.state))
    ∧ ((e.configure cfg).toOption.map Engine.previousState = some e.previousState)
    ∧ ((e.configure cfg).toOption.map Engine.config = some (some cfg))
    ∧ (∀ a ∈ cfg.actions, ∀ i, a.id = some i →
        (e.configure cfg).toOption.map (fun e2 => mapGet e2.actions i)
          = some (some (storedAction i a))) := by
  have hok : e.configure cfg
      = Except.ok (cfg.actions.foldl Engine.addAction
          { e with config := some cfg, currentState := some cfg.state }) := by
    simp [Engine.configure, hd]
  obtain ⟨f1, f2, f3⟩ :=
    foldl_addAction_frame cfg.actions
      { e with config := some cfg, currentState := some cfg.state }
  refine ⟨?_, ?_, ?_, ?_⟩
  · rw [hok]
    simpa [Except.toOption] using f2
  · rw [hok]
    simpa [Except.toOption] using f3
  · rw [hok]
    simpa [Except.toOption] using f1
  · intro a ha i hai
    rw [hok]
    have hreg := foldl_addAction_mapGet cfg.actions
      { e with config := some cfg, currentState := some cfg.state } hids hnd a ha i hai
    simp [Except.toOption, hreg]

def c9cfgA : Config Nat Unit :=
  { state := 5, providers := (), actions := [c1act], onError := false, debug := false }

theorem configure_spec_witness :
    ((Engine.start.configure c9cfgA).toOption.map Engine.currentState = some (some 5))
    ∧ (((Engine.start : Engine Nat Unit).configure c9cfgA).toOption.map
        (fun e2 => mapGet e2.actions "a") = some (some (storedAction "a" c1act))) :=
  ⟨(configure_spec Engine.start c9cfgA rfl (by decide) (by decide)).1,
   (configure_spec Engine.start c9cfgA rfl (by decide) (by decide)).2.2.2 c1act
     (List.mem_cons_self c1act []) "a" rfl⟩

end ReactiveAI
